import Mathlib

/-!
Shallow embedding of the job-control core of `src/tinyShell.c` (tsh, a tiny
shell with job control), together with proofs of the specification's claims
about it.

The embedding covers: the job table (`struct job_t jobs[MAXJOBS]` plus the
global `nextjid`), its accessors and mutators (`clearjob`, `initjobs`,
`maxjid`, `addjob`, `deletejob`, `fgpid`, `getjobpid`, `getjobjid`,
`pid2jid`), the built-in `bg`/`fg` command (`do_bgfg`), the foreground wait
primitive (`waitfg`), and the three signal handlers (`sigchld_handler`,
`sigint_handler`, `sigtstp_handler`).  The fixed 16-slot array is modelled
as a `List job_t` (of length 16 in the initial state); the C loops over the
array become structural recursions over the list.  Printing is modelled by
returning the list of emitted strings, and `kill` calls by returning the
list of `(target, signal)` pairs.  On top of the per-function embeddings, a
small-step transition system (`Step`/`Reachable`) models the shell's actual
control flow: the main read/eval loop issues commands only while it is not
blocked inside `waitfg`, and signal handlers may fire between any two steps.
-/

namespace Tsh

/-- Job state constant `UNDEF` (`#define UNDEF 0`). -/
def UNDEF : Int := 0

/-- Job state constant `FG` (`#define FG 1`, running in foreground). -/
def FG : Int := 1

/-- Job state constant `BG` (`#define BG 2`, running in background). -/
def BG : Int := 2

/-- Job state constant `ST` (`#define ST 3`, stopped). -/
def ST : Int := 3

/-- Table capacity (`#define MAXJOBS 16`). -/
def MAXJOBS : Int := 16

/-- Signal number delivered by ctrl-c (SIGINT on Linux). -/
def SIGINT : Int := 2

/-- Signal number delivered by ctrl-z (SIGTSTP on Linux). -/
def SIGTSTP : Int := 20

/-- Signal number sent by `bg`/`fg` to resume a job (SIGCONT on Linux). -/
def SIGCONT : Int := 18

/-- One slot of the job table, `struct job_t`: pid, job id, state, command line. -/
structure job_t where
  pid : Int
  jid : Int
  state : Int
  cmdline : String
deriving DecidableEq, Repr

/-- The global state the job-table helpers operate on: the slot array `jobs`
and the allocation counter `nextjid`. -/
structure JobsState where
  jobs : List job_t
  nextjid : Int
deriving DecidableEq, Repr

/-- `clearjob` writes pid 0, jid 0, state `UNDEF`, empty command line. -/
def clearjob : job_t := ⟨0, 0, UNDEF, ""⟩

/-- `initjobs` clears all `MAXJOBS` slots; `nextjid` starts at 1 (its C
initializer). -/
def initjobs : JobsState := ⟨List.replicate 16 clearjob, 1⟩

/-- `maxjid`: largest allocated job ID; a linear scan keeping the running
maximum, starting from 0. -/
def maxjid (jobs : List job_t) : Int :=
  jobs.foldl (fun m j => if m < j.jid then j.jid else m) 0

/-- The slot-scanning loop of `addjob`: find the first slot with pid 0, store
the new job there with jid `nj`, and return the updated slots, the updated
`nextjid` (incremented, wrapping to 1 once it exceeds `MAXJOBS`), and the
return flag (1 on success, 0 when every slot is occupied). -/
def addjobScan (slots : List job_t) (pid state : Int) (cmdline : String) (nj : Int) :
    List job_t × Int × Int :=
  match slots with
  | [] => ([], nj, 0)
  | j :: rest =>
    if j.pid = 0 then
      ((⟨pid, nj, state, cmdline⟩ : job_t) :: rest,
       if MAXJOBS < nj + 1 then 1 else nj + 1, 1)
    else
      let r := addjobScan rest pid state cmdline nj
      (j :: r.1, r.2.1, r.2.2)

/-- `addjob`: reject pid < 1, otherwise register in the first empty slot with
jid taken from `nextjid`.  On a full table the C code prints
"Tried to create too many jobs" and returns 0 leaving the table unchanged. -/
def addjob (st : JobsState) (pid state : Int) (cmdline : String) : JobsState × Int :=
  if pid < 1 then (st, 0)
  else
    let r := addjobScan st.jobs pid state cmdline st.nextjid
    (⟨r.1, r.2.1⟩, r.2.2)

/-- The slot-scanning loop of `deletejob`: clear the first slot whose pid
matches, returning flag 1, or flag 0 when no slot matches. -/
def deletejobScan (slots : List job_t) (pid : Int) : List job_t × Int :=
  match slots with
  | [] => ([], 0)
  | j :: rest =>
    if j.pid = pid then (clearjob :: rest, 1)
    else
      let r := deletejobScan rest pid
      (j :: r.1, r.2)

/-- `deletejob`: reject pid < 1; on a hit, clear the slot and recompute
`nextjid = maxjid(jobs) + 1` over the updated table. -/
def deletejob (st : JobsState) (pid : Int) : JobsState × Int :=
  if pid < 1 then (st, 0)
  else
    let r := deletejobScan st.jobs pid
    if r.2 = 1 then (⟨r.1, maxjid r.1 + 1⟩, 1) else (⟨r.1, st.nextjid⟩, 0)

/-- `fgpid`: pid of the first slot in state `FG`, or 0 when none. -/
def fgpid (jobs : List job_t) : Int :=
  match jobs with
  | [] => 0
  | j :: rest => if j.state = FG then j.pid else fgpid rest

/-- `getjobpid`: find a job by pid; NULL (here `none`) for pid < 1 or no match. -/
def getjobpid (jobs : List job_t) (pid : Int) : Option job_t :=
  if pid < 1 then none else jobs.find? (fun j => j.pid == pid)

/-- `getjobjid`: find a job by jid; NULL (here `none`) for jid < 1 or no match. -/
def getjobjid (jobs : List job_t) (jid : Int) : Option job_t :=
  if jid < 1 then none else jobs.find? (fun j => j.jid == jid)

/-- `pid2jid`: jid of the first slot whose pid matches, 0 on pid < 1 or no match. -/
def pid2jid (jobs : List job_t) (pid : Int) : Int :=
  if pid < 1 then 0
  else
    match jobs.find? (fun j => j.pid == pid) with
    | some j => j.jid
    | none => 0

/-- In-place mutation through a pointer returned by `getjobpid`/`getjobjid`:
update the first slot satisfying the predicate (the slot the pointer
addresses), leaving every other slot untouched. -/
def updateFirst (p : job_t → Bool) (f : job_t → job_t) : List job_t → List job_t
  | [] => []
  | j :: rest => if p j then f j :: rest else j :: updateFirst p f rest

/-- Write `state := s` through the pointer obtained from `getjobpid jobs pid`
(the first slot whose pid matches). -/
def setStateByPid (st : JobsState) (pid s : Int) : JobsState :=
  ⟨updateFirst (fun j => j.pid == pid) (fun j => { j with state := s }) st.jobs, st.nextjid⟩

/-- Write `state := s` through the pointer obtained from `getjobjid jobs jid`
(the first slot whose jid matches). -/
def setStateByJid (st : JobsState) (jid s : Int) : JobsState :=
  ⟨updateFirst (fun j => j.jid == jid) (fun j => { j with state := s }) st.jobs, st.nextjid⟩

/-- C `isspace` on the characters it accepts in the default locale. -/
def isspace (c : Char) : Bool :=
  c = ' ' || c = '\t' || c = '\n' || c = '\x0b' || c = '\x0c' || c = '\r'

/-- Digit-accumulation loop of C `atoi`: consume leading digits, stop at the
first non-digit. -/
def atoiDigits : List Char → Int → Int
  | [], acc => acc
  | c :: cs, acc =>
    if c.isDigit then atoiDigits cs (acc * 10 + ((c.toNat : Int) - 48)) else acc

/-- C `atoi`: skip leading whitespace, optional sign, then decimal digits. -/
def atoi (s : String) : Int :=
  match s.data.dropWhile isspace with
  | '-' :: rest => -(atoiDigits rest 0)
  | '+' :: rest => atoiDigits rest 0
  | cs => atoiDigits cs 0

/-- Resolved `bg`/`fg` target, remembering how the job was located (`do_bgfg`
mutates through the pointer returned by the lookup that succeeded): by job id
(`%n` argument, pid read from the found job) or by pid (digit argument). -/
inductive BgfgTarget where
  | byJid (jid : Int) (job : job_t)
  | byPid (pid : Int) (job : job_t)
deriving DecidableEq, Repr

/-- The job a resolved target points at. -/
def BgfgTarget.job : BgfgTarget → job_t
  | .byJid _ j => j
  | .byPid _ j => j

/-- The local variable `pid` of `do_bgfg` after resolution: `this_job->pid`
on the jid path, `atoi(argv[1])` on the pid path. -/
def BgfgTarget.pid : BgfgTarget → Int
  | .byJid _ j => j.pid
  | .byPid p _ => p

/-- The argument-resolution phase of `do_bgfg` (lines 406-441): no argument,
a `%jobid` argument, a digit-leading pid argument, or bad input.  `Except`
carries the exact diagnostic the C `printf` emits on each failure path. -/
def bgfgResolve (argv : List String) (st : JobsState) : Except String BgfgTarget :=
  match argv.get? 1 with
  | none => .error (argv.headD "" ++ " command requires PID or %jobid argument\n")
  | some a1 =>
    match a1.data with
    | [] => .error (argv.headD "" ++ ": argument must be a PID or %jobid\n")
    | c :: rest =>
      if c = '%' then
        let jid := atoi (String.mk rest)
        match getjobjid st.jobs jid with
        | none => .error (a1 ++ ": No such job\n")
        | some job => .ok (.byJid jid job)
      else if c.isDigit then
        let pid := atoi a1
        match getjobpid st.jobs pid with
        | none => .error ("(" ++ toString pid ++ "): No such process\n")
        | some job => .ok (.byPid pid job)
      else .error (argv.headD "" ++ ": argument must be a PID or %jobid\n")

/-- Result of `do_bgfg`: the table afterwards, the printed lines, the `kill`
calls issued as (target, signal) pairs, and the pid passed to `waitfg` when
the `fg` branch runs. -/
structure BgfgResult where
  st : JobsState
  out : List String
  kills : List (Int × Int)
  wait : Option Int
deriving DecidableEq, Repr

/-- `this_job->state = s` through the pointer the resolution phase produced. -/
def bgfgSetState (st : JobsState) (tgt : BgfgTarget) (s : Int) : JobsState :=
  match tgt with
  | .byJid jid _ => setStateByJid st jid s
  | .byPid pid _ => setStateByPid st pid s

/-- `do_bgfg` (lines 396-466): resolve the target; on failure print the
diagnostic and return.  For `bg`: set state `BG`, print
`[jid] (pid) cmdline` (jid via `pid2jid` on the mutated table), then
`kill(-pid, SIGCONT)`.  For `fg`: set state `FG`, `kill(-pid, SIGCONT)`,
then `waitfg(pid)`. -/
def do_bgfg (argv : List String) (st : JobsState) : BgfgResult :=
  match bgfgResolve argv st with
  | .error msg => ⟨st, [msg], [], none⟩
  | .ok tgt =>
    if argv.headD "" = "bg" then
      let st' := bgfgSetState st tgt BG
      ⟨st',
       ["[" ++ toString (pid2jid st'.jobs tgt.pid) ++ "] (" ++ toString tgt.pid ++ ") "
          ++ tgt.job.cmdline],
       [(-tgt.pid, SIGCONT)], none⟩
    else if argv.headD "" = "fg" then
      ⟨bgfgSetState st tgt FG, [], [(-tgt.pid, SIGCONT)], some tgt.pid⟩
    else ⟨st, [], [], none⟩

/-- Exit condition of `waitfg` at a given table snapshot: the early return
when `getjobpid` is NULL, otherwise the negation of the `while` guard
`currentjob->state == FG`.  (The C loop re-reads the state through the slot
pointer each iteration; the slot a pid occupies cannot change while the main
flow is parked inside `waitfg`, so re-reading the pointer and re-running the
lookup agree.) -/
def waitfgExits (jobs : List job_t) (pid : Int) : Bool :=
  match getjobpid jobs pid with
  | none => true
  | some j => !(j.state == FG)

/-- One reaped `waitpid` status: exited normally, killed by a signal, or
stopped by a signal (`WIFEXITED` / `WIFSIGNALED` / `WIFSTOPPED`). -/
inductive WStatus where
  | exited (code : Int)
  | signaled (sig : Int)
  | stopped (sig : Int)
deriving DecidableEq, Repr

/-- Body of `sigchld_handler`'s reaping loop for one reaped (pid, status)
(lines 514-535).  Exited: delete silently.  Signaled: print the termination
line (jid via `pid2jid` before deletion), then delete.  Stopped: look the
job up by pid, set its state to `ST` through the pointer, then print the
stop line; the C code dereferences the lookup result without a NULL check,
so a stopped pid absent from the table is undefined behaviour, modelled as
`none`. -/
def sigchldStep (st : JobsState) (pid : Int) (w : WStatus) :
    Option (JobsState × List String) :=
  match w with
  | .exited _ => some ((deletejob st pid).1, [])
  | .signaled sig =>
    some ((deletejob st pid).1,
      ["Job [" ++ toString (pid2jid st.jobs pid) ++ "] (" ++ toString pid
        ++ ") terminated by signal " ++ toString sig ++ "\n"])
  | .stopped sig =>
    match getjobpid st.jobs pid with
    | none => none
    | some _ =>
      let st' := setStateByPid st pid ST
      some (st',
        ["Job [" ++ toString (pid2jid st'.jobs pid) ++ "] (" ++ toString pid
          ++ ") stopped by signal " ++ toString sig ++ "\n"])

/-- `sigint_handler` (lines 544-559): read `fgpid`; if `getjobpid` on it is
NULL return doing nothing, else `kill(-pid, sig)`.  The handler never writes
the job table, so the table is returned unchanged. -/
def sigint_handler (st : JobsState) (sig : Int) : JobsState × List (Int × Int) :=
  let pid := fgpid st.jobs
  match getjobpid st.jobs pid with
  | none => (st, [])
  | some _ => (st, [(-pid, sig)])

/-- `sigtstp_handler` (lines 566-580): identical shape to `sigint_handler`. -/
def sigtstp_handler (st : JobsState) (sig : Int) : JobsState × List (Int × Int) :=
  let pid := fgpid st.jobs
  match getjobpid st.jobs pid with
  | none => (st, [])
  | some _ => (st, [(-pid, sig)])

/-- Location of the shell's main flow: in the read/eval loop (`idle`) or
parked inside `waitfg pid` (`waiting pid`). -/
inductive MainLoc where
  | idle
  | waiting (pid : Int)
deriving DecidableEq, Repr

/-- Whole-shell state for the transition system: the job table and counter,
the main flow's location, the pids of live children that failed registration
(spawned while the table was full, so they run untracked), and whether the
child-status handler has dereferenced a NULL job pointer. -/
structure Shell where
  tbl : JobsState
  loc : MainLoc
  untracked : List Int
  crashed : Bool
deriving DecidableEq, Repr

/-- The shell's state right after `initjobs(jobs)` in `main`. -/
def shellInit : Shell := ⟨initjobs, .idle, [], false⟩

/-- Pids of the live (occupied) slots of the table. -/
def livePids (jobs : List job_t) : List Int :=
  (jobs.filter (fun j => !(j.pid == 0))).map (fun j => j.pid)

/-- Kernel assumption on a fork result: the new pid is positive and is not
the pid of any live child (tracked or untracked). -/
def pidFresh (s : Shell) (pid : Int) : Prop :=
  1 ≤ pid ∧ pid ∉ livePids s.tbl.jobs ∧ pid ∉ s.untracked

instance (s : Shell) (pid : Int) : Decidable (pidFresh s pid) := by
  unfold pidFresh; infer_instance

/-- Effect of `eval` forking a child and registering it (`addjob`), with the
main flow moving to `lc` (`idle` for a background launch, `waiting pid` for a
foreground launch).  When `addjob` fails (full table) the child still runs,
untracked. -/
def spawnState (s : Shell) (pid state : Int) (cmdline : String) (lc : MainLoc) : Shell :=
  let r := addjob s.tbl pid state cmdline
  { tbl := r.1, loc := lc,
    untracked := if r.2 = 1 then s.untracked else pid :: s.untracked,
    crashed := s.crashed }

/-- Effect of the main loop running the `bg`/`fg` built-in: apply `do_bgfg`;
if it called `waitfg pid`, the main flow is now parked there. -/
def runBgfgState (s : Shell) (argv : List String) : Shell :=
  let r := do_bgfg argv s.tbl
  { tbl := r.st,
    loc := match r.wait with | some p => .waiting p | none => .idle,
    untracked := s.untracked, crashed := s.crashed }

/-- Effect of `sigchld_handler` reaping one (pid, status): apply the loop
body; a child that exited or was killed is no longer live, so it also leaves
`untracked` if it was there; a NULL dereference (stopped pid not in the
table) marks the shell crashed. -/
def childEventState (s : Shell) (pid : Int) (w : WStatus) : Shell :=
  match sigchldStep s.tbl pid w with
  | some r =>
    { tbl := r.1, loc := s.loc,
      untracked := match w with
        | .stopped _ => s.untracked
        | _ => s.untracked.erase pid,
      crashed := s.crashed }
  | none => { s with crashed := true }

/-- Small-step transitions of the shell.  Main-loop steps (`spawnBG`,
`spawnFG`, `bgfgCmd`) need `loc = idle`: `eval` runs a new command only
after the previous foreground wait returned (lines 139-157, 252, 462).
`waitReturn` is `waitfg` observing its exit condition.  `childEvent` is the
child-status handler reaping a live child; the kernel can deliver it at any
instruction boundary.  `sigint_handler`/`sigtstp_handler` never write the
table, so they contribute no transition. -/
inductive Step : Shell → Shell → Prop where
  | spawnBG (s : Shell) (pid : Int) (cmdline : String) (hc : s.crashed = false)
      (hl : s.loc = .idle) (hf : pidFresh s pid) :
      Step s (spawnState s pid BG cmdline .idle)
  | spawnFG (s : Shell) (pid : Int) (cmdline : String) (hc : s.crashed = false)
      (hl : s.loc = .idle) (hf : pidFresh s pid) :
      Step s (spawnState s pid FG cmdline (.waiting pid))
  | bgfgCmd (s : Shell) (argv : List String) (hc : s.crashed = false)
      (hl : s.loc = .idle) :
      Step s (runBgfgState s argv)
  | waitReturn (s : Shell) (pid : Int) (hc : s.crashed = false)
      (hl : s.loc = .waiting pid) (hw : waitfgExits s.tbl.jobs pid = true) :
      Step s { s with loc := .idle }
  | childEvent (s : Shell) (pid : Int) (w : WStatus) (hc : s.crashed = false)
      (hlive : pid ∈ livePids s.tbl.jobs ∨ pid ∈ s.untracked) :
      Step s (childEventState s pid w)

/-- States the shell can actually be in, starting from `shellInit`. -/
inductive Reachable : Shell → Prop where
  | init : Reachable shellInit
  | step {s s' : Shell} : Reachable s → Step s s' → Reachable s'

/-! ## Basic facts about the table operations -/

/-- Liveness well-formedness of the table: empty slots are fully cleared,
live slots carry a positive pid and a positive jid, and live pids are
pairwise distinct (kernel pids of live children are unique). -/
def WfJobs (jobs : List job_t) : Prop :=
  (∀ j ∈ jobs, j.pid = 0 → j.state = UNDEF ∧ j.jid = 0) ∧
  (∀ j ∈ jobs, j.pid ≠ 0 → 1 ≤ j.pid ∧ 1 ≤ j.jid) ∧
  (livePids jobs).Nodup

instance (jobs : List job_t) : Decidable (WfJobs jobs) := by
  unfold WfJobs; infer_instance

/-- Number of slots currently in state `FG`. -/
def countFG (jobs : List job_t) : Nat :=
  (jobs.filter (fun j => j.state == FG)).length

theorem livePids_append (l1 l2 : List job_t) :
    livePids (l1 ++ l2) = livePids l1 ++ livePids l2 := by
  simp [livePids]

theorem livePids_cons_live {j : job_t} (h : j.pid ≠ 0) (l : List job_t) :
    livePids (j :: l) = j.pid :: livePids l := by
  simp [livePids, List.filter_cons, h]

theorem livePids_cons_dead {j : job_t} (h : j.pid = 0) (l : List job_t) :
    livePids (j :: l) = livePids l := by
  simp [livePids, List.filter_cons, h]

theorem mem_livePids {l : List job_t} {p : Int} :
    p ∈ livePids l ↔ ∃ j ∈ l, j.pid ≠ 0 ∧ j.pid = p := by
  simp only [livePids, List.mem_map, List.mem_filter]
  constructor
  · rintro ⟨j, ⟨hj, hlive⟩, rfl⟩
    exact ⟨j, hj, by simpa using hlive, rfl⟩
  · rintro ⟨j, hj, hlive, rfl⟩
    exact ⟨j, ⟨hj, by simpa using hlive⟩, rfl⟩

theorem countFG_append (l1 l2 : List job_t) :
    countFG (l1 ++ l2) = countFG l1 + countFG l2 := by
  simp [countFG]

theorem countFG_eq_zero {l : List job_t} :
    countFG l = 0 ↔ ∀ j ∈ l, j.state ≠ FG := by
  simp [countFG, List.filter_eq_nil_iff]

/-- Characterisation of `addjobScan`: either every slot is occupied and the
scan returns the slots and counter unchanged with flag 0, or the slots split
around the first empty slot, which receives the new job. -/
theorem addjobScan_cases (slots : List job_t) (pid state : Int) (cm : String) (nj : Int) :
    ((∀ j ∈ slots, j.pid ≠ 0) ∧ addjobScan slots pid state cm nj = (slots, nj, 0)) ∨
    (∃ l1 j0 l2, slots = l1 ++ j0 :: l2 ∧ (∀ j ∈ l1, j.pid ≠ 0) ∧ j0.pid = 0 ∧
      addjobScan slots pid state cm nj =
        (l1 ++ (⟨pid, nj, state, cm⟩ : job_t) :: l2,
         if MAXJOBS < nj + 1 then 1 else nj + 1, 1)) := by
  induction slots with
  | nil => exact Or.inl ⟨by simp, rfl⟩
  | cons j rest ih =>
    by_cases hj : j.pid = 0
    · refine Or.inr ⟨[], j, rest, by simp, by simp, hj, ?_⟩
      simp [addjobScan, hj]
    · rcases ih with ⟨hall, heq⟩ | ⟨l1, j0, l2, hsplit, hocc, hj0, heq⟩
      · refine Or.inl ⟨?_, ?_⟩
        · intro x hx
          rcases List.mem_cons.mp hx with rfl | hx
          · exact hj
          · exact hall x hx
        · simp [addjobScan, hj, heq]
      · refine Or.inr ⟨j :: l1, j0, l2, by simp [hsplit], ?_, hj0, ?_⟩
        · intro x hx
          rcases List.mem_cons.mp hx with rfl | hx
          · exact hj
          · exact hocc x hx
        · simp [addjobScan, hj, heq]

/-- Characterisation of `deletejobScan`: either no slot matches and the scan
returns the slots unchanged with flag 0, or the slots split around the first
matching slot, which is cleared. -/
theorem deletejobScan_cases (slots : List job_t) (pid : Int) :
    ((∀ j ∈ slots, j.pid ≠ pid) ∧ deletejobScan slots pid = (slots, 0)) ∨
    (∃ l1 j0 l2, slots = l1 ++ j0 :: l2 ∧ (∀ j ∈ l1, j.pid ≠ pid) ∧ j0.pid = pid ∧
      deletejobScan slots pid = (l1 ++ clearjob :: l2, 1)) := by
  induction slots with
  | nil => exact Or.inl ⟨by simp, rfl⟩
  | cons j rest ih =>
    by_cases hj : j.pid = pid
    · refine Or.inr ⟨[], j, rest, by simp, by simp, hj, ?_⟩
      simp [deletejobScan, hj]
    · rcases ih with ⟨hall, heq⟩ | ⟨l1, j0, l2, hsplit, hmiss, hj0, heq⟩
      · refine Or.inl ⟨?_, ?_⟩
        · intro x hx
          rcases List.mem_cons.mp hx with rfl | hx
          · exact hj
          · exact hall x hx
        · simp [deletejobScan, hj, heq]
      · refine Or.inr ⟨j :: l1, j0, l2, by simp [hsplit], ?_, hj0, ?_⟩
        · intro x hx
          rcases List.mem_cons.mp hx with rfl | hx
          · exact hj
          · exact hmiss x hx
        · simp [deletejobScan, hj, heq]

theorem updateFirst_of_find?_none {p : job_t → Bool} {l : List job_t}
    (h : l.find? p = none) (f : job_t → job_t) : updateFirst p f l = l := by
  induction l with
  | nil => rfl
  | cons j rest ih =>
    rw [List.find?_cons] at h
    by_cases hp : p j
    · simp [hp] at h
    · simp only [hp] at h
      simp [updateFirst, hp, ih h]

/-- Splitting a list around the slot `find?` locates, together with the
effect of `updateFirst` on it. -/
theorem find?_decomp {p : job_t → Bool} {l : List job_t} {a : job_t}
    (h : l.find? p = some a) (f : job_t → job_t) :
    ∃ l1 l2, l = l1 ++ a :: l2 ∧ (∀ x ∈ l1, p x = false) ∧ p a = true ∧
      updateFirst p f l = l1 ++ f a :: l2 := by
  induction l with
  | nil => simp at h
  | cons j rest ih =>
    rw [List.find?_cons] at h
    by_cases hp : p j
    · simp only [hp, if_pos] at h
      refine ⟨[], rest, ?_, by simp, ?_, ?_⟩
      · simp [(Option.some_inj.mp h).symm]
      · rw [← Option.some_inj.mp h]; exact hp
      · simp [updateFirst, hp, ← Option.some_inj.mp h]
    · simp only [hp] at h
      obtain ⟨l1, l2, hsplit, hfail, hpa, hupd⟩ := ih h
      refine ⟨j :: l1, l2, by simp [hsplit], ?_, hpa, ?_⟩
      · intro x hx
        rcases List.mem_cons.mp hx with rfl | hx
        · exact Bool.eq_false_iff.mpr hp
        · exact hfail x hx
      · simp [updateFirst, hp, hupd]

theorem find?_append_left_fail {p : job_t → Bool} {l1 : List job_t}
    (h : ∀ x ∈ l1, p x = false) (l2 : List job_t) :
    (l1 ++ l2).find? p = l2.find? p := by
  induction l1 with
  | nil => rfl
  | cons j rest ih =>
    have hj := h j (by simp)
    simp only [List.cons_append, List.find?_cons, hj]
    exact ih (fun x hx => h x (List.mem_cons_of_mem _ hx)) |>.trans rfl

theorem maxjid_acc_le (l : List job_t) (a : Int) :
    a ≤ l.foldl (fun m j => if m < j.jid then j.jid else m) a := by
  induction l generalizing a with
  | nil => simp
  | cons j rest ih =>
    simp only [List.foldl_cons]
    refine le_trans ?_ (ih _)
    by_cases h : a < j.jid
    · simp [h]; omega
    · simp [h]

theorem le_maxjid_of_mem {l : List job_t} {j : job_t} (hj : j ∈ l) (a : Int) :
    j.jid ≤ l.foldl (fun m j => if m < j.jid then j.jid else m) a := by
  induction l generalizing a with
  | nil => simp at hj
  | cons x rest ih =>
    rcases List.mem_cons.mp hj with rfl | hj
    · simp only [List.foldl_cons]
      refine le_trans ?_ (maxjid_acc_le rest _)
      by_cases h : a < j.jid
      · simp [h]
      · simp [h]; omega
    · exact ih hj _

theorem maxjid_nonneg (l : List job_t) : 0 ≤ maxjid l := maxjid_acc_le l 0

theorem le_maxjid {l : List job_t} {j : job_t} (hj : j ∈ l) : j.jid ≤ maxjid l :=
  le_maxjid_of_mem hj 0

/-! ## Pid uniqueness and the shell invariant -/

/-- Two occupied slots with the same pid are the same slot when live pids
are pairwise distinct. -/
theorem live_pid_inj {l : List job_t} (hnd : (livePids l).Nodup)
    {j1 j2 : job_t} (h1 : j1 ∈ l) (h2 : j2 ∈ l) (hp : j1.pid = j2.pid)
    (hlive : j1.pid ≠ 0) : j1 = j2 := by
  induction l with
  | nil => simp at h1
  | cons x rest ih =>
    have htail : (livePids rest).Nodup := by
      by_cases hx : x.pid = 0
      · rwa [livePids_cons_dead hx] at hnd
      · rw [livePids_cons_live hx] at hnd
        exact hnd.of_cons
    rcases List.mem_cons.mp h1 with h1e | h1m <;> rcases List.mem_cons.mp h2 with h2e | h2m
    · rw [h1e, h2e]
    · exfalso
      subst h1e
      rw [livePids_cons_live hlive] at hnd
      exact (List.nodup_cons.mp hnd).1
        (mem_livePids.mpr ⟨j2, h2m, by omega, hp.symm⟩)
    · exfalso
      subst h2e
      rw [livePids_cons_live (show j2.pid ≠ 0 by omega)] at hnd
      exact (List.nodup_cons.mp hnd).1 (mem_livePids.mpr ⟨j1, h1m, hlive, hp⟩)
    · exact ih htail h1m h2m

/-- In a table with distinct live pids, no slot outside the distinguished
occupied slot shares its pid. -/
theorem nodup_livePids_split {l1 l2 : List job_t} {a : job_t}
    (hnd : (livePids (l1 ++ a :: l2)).Nodup) (ha : a.pid ≠ 0) :
    (∀ x ∈ l1, x.pid ≠ a.pid) ∧ (∀ x ∈ l2, x.pid ≠ a.pid) := by
  rw [livePids_append, livePids_cons_live ha, List.nodup_append] at hnd
  obtain ⟨hnd1, hnd2, hdisj⟩ := hnd
  constructor
  · intro x hx hpx
    exact hdisj (mem_livePids.mpr ⟨x, hx, by omega, hpx⟩) (List.mem_cons_self _ _)
  · intro x hx hpx
    exact (List.nodup_cons.mp hnd2).1 (mem_livePids.mpr ⟨x, hx, by omega, hpx⟩)

/-- Dropping a slot preserves distinctness of live pids. -/
theorem nodup_livePids_drop {l1 l2 : List job_t} {a : job_t}
    (hnd : (livePids (l1 ++ a :: l2)).Nodup) :
    (livePids (l1 ++ l2)).Nodup := by
  refine List.Nodup.sublist ?_ hnd
  rw [livePids_append, livePids_append]
  by_cases ha : a.pid = 0
  · rw [livePids_cons_dead ha]
  · rw [livePids_cons_live ha]
    exact List.Sublist.append (List.Sublist.refl _) (List.Sublist.cons _ (List.Sublist.refl _))

/-- What the table must satisfy at the main flow's current location: while
the loop is free (`idle`) no job is foreground (the previous `waitfg`
returned), and while parked in `waitfg p`, any foreground job is `p` itself. -/
def LocInv (jobs : List job_t) : MainLoc → Prop
  | .idle => ∀ j ∈ jobs, j.state ≠ FG
  | .waiting p => ∀ j ∈ jobs, j.state = FG → j.pid = p

/-- Inductive invariant of the shell transition system. -/
def Inv (s : Shell) : Prop :=
  WfJobs s.tbl.jobs ∧ 1 ≤ s.tbl.nextjid ∧ LocInv s.tbl.jobs s.loc

theorem inv_init : Inv shellInit := by
  refine ⟨⟨?_, ?_, ?_⟩, ?_, ?_⟩
  · decide
  · decide
  · decide
  · decide
  · intro j hj
    rw [List.eq_of_mem_replicate hj]
    decide

/-- Any slot of the table produced by `addjob` is an old slot or the newly
registered job. -/
theorem addjob_mem {st : JobsState} {pid state : Int} {cm : String} {j : job_t}
    (hj : j ∈ (addjob st pid state cm).1.jobs) :
    j ∈ st.jobs ∨ j = (⟨pid, st.nextjid, state, cm⟩ : job_t) := by
  unfold addjob at hj
  by_cases hpid : pid < 1
  · simp only [if_pos hpid] at hj
    exact Or.inl hj
  · simp only [if_neg hpid] at hj
    rcases addjobScan_cases st.jobs pid state cm st.nextjid with ⟨_, heq⟩ |
      ⟨l1, j0, l2, hsplit, _, _, heq⟩
    · rw [heq] at hj
      exact Or.inl hj
    · rw [heq] at hj
      simp only at hj
      rcases List.mem_append.mp hj with h | h
      · exact Or.inl (by rw [hsplit]; exact List.mem_append_left _ h)
      · rcases List.mem_cons.mp h with rfl | h
        · exact Or.inr rfl
        · exact Or.inl (by rw [hsplit]; exact List.mem_append_right _ (List.mem_cons_of_mem _ h))

/-- `addjob` preserves table well-formedness and counter positivity when the
new pid is a fresh positive pid. -/
theorem addjob_wf {st : JobsState} {pid : Int} (state : Int) (cm : String)
    (hwf : WfJobs st.jobs) (hnj : 1 ≤ st.nextjid)
    (hpid : 1 ≤ pid) (hfresh : pid ∉ livePids st.jobs) :
    WfJobs (addjob st pid state cm).1.jobs ∧ 1 ≤ (addjob st pid state cm).1.nextjid := by
  obtain ⟨hW1, hW2, hnd⟩ := hwf
  unfold addjob
  have hpid' : ¬pid < 1 := by omega
  simp only [if_neg hpid']
  rcases addjobScan_cases st.jobs pid state cm st.nextjid with ⟨_, heq⟩ |
    ⟨l1, j0, l2, hsplit, _, hj0, heq⟩
  · rw [heq]
    exact ⟨⟨hW1, hW2, hnd⟩, hnj⟩
  · rw [heq]
    simp only
    have hmem : ∀ j ∈ l1 ++ (⟨pid, st.nextjid, state, cm⟩ : job_t) :: l2,
        j ∈ st.jobs ∨ j = (⟨pid, st.nextjid, state, cm⟩ : job_t) := by
      intro j hj
      rcases List.mem_append.mp hj with h | h
      · exact Or.inl (by rw [hsplit]; exact List.mem_append_left _ h)
      · rcases List.mem_cons.mp h with rfl | h
        · exact Or.inr rfl
        · exact Or.inl (by rw [hsplit]; exact List.mem_append_right _ (List.mem_cons_of_mem _ h))
    have hold : livePids st.jobs = livePids l1 ++ livePids l2 := by
      rw [hsplit, livePids_append, livePids_cons_dead hj0]
    refine ⟨⟨?_, ?_, ?_⟩, ?_⟩
    · intro j hj hp0
      rcases hmem j hj with h | rfl
      · exact hW1 j h hp0
      · exact absurd hp0 (by simp; omega)
    · intro j hj hp0
      rcases hmem j hj with h | rfl
      · exact hW2 j h hp0
      · exact ⟨hpid, hnj⟩
    · have hnd' : (livePids l1 ++ livePids l2).Nodup := by rwa [hold] at hnd
      rw [livePids_append, livePids_cons_live (show pid ≠ 0 by omega)]
      rw [List.nodup_append] at hnd' ⊢
      obtain ⟨h1, h2, hdisj⟩ := hnd'
      refine ⟨h1, List.nodup_cons.mpr ⟨?_, h2⟩, ?_⟩
      · intro hmem'
        exact hfresh (by rw [hold]; exact List.mem_append_right _ hmem')
      · intro x hx1 hx2
        rcases List.mem_cons.mp hx2 with rfl | hx2
        · exact hfresh (by rw [hold]; exact List.mem_append_left _ hx1)
        · exact hdisj hx1 hx2
    · split <;> omega

/-- Characterisation of `deletejob`: a miss (invalid pid or no matching slot)
leaves the state untouched with flag 0; a hit clears the first matching slot
and recomputes the counter. -/
theorem deletejob_cases (st : JobsState) (pid : Int) :
    ((deletejob st pid).1 = st ∧ (deletejob st pid).2 = 0 ∧
      (pid < 1 ∨ ∀ j ∈ st.jobs, j.pid ≠ pid)) ∨
    (∃ l1 j0 l2, ¬pid < 1 ∧ st.jobs = l1 ++ j0 :: l2 ∧
      (∀ j ∈ l1, j.pid ≠ pid) ∧ j0.pid = pid ∧
      deletejob st pid = (⟨l1 ++ clearjob :: l2, maxjid (l1 ++ clearjob :: l2) + 1⟩, 1)) := by
  unfold deletejob
  by_cases hpid : pid < 1
  · exact Or.inl ⟨by simp [hpid], by simp [hpid], Or.inl hpid⟩
  · simp only [if_neg hpid]
    rcases deletejobScan_cases st.jobs pid with ⟨hall, heq⟩ |
      ⟨l1, j0, l2, hsplit, hmiss, hj0, heq⟩
    · rw [heq]
      exact Or.inl ⟨rfl, by simp, Or.inr hall⟩
    · rw [heq]
      exact Or.inr ⟨l1, j0, l2, hpid, hsplit, hmiss, hj0, by simp⟩

/-- Any slot of the table produced by `deletejob` is an old slot or a cleared
slot. -/
theorem deletejob_mem {st : JobsState} {pid : Int} {j : job_t}
    (hj : j ∈ (deletejob st pid).1.jobs) : j ∈ st.jobs ∨ j = clearjob := by
  rcases deletejob_cases st pid with ⟨heq, _, _⟩ | ⟨l1, j0, l2, _, hsplit, _, _, heq⟩
  · rw [heq] at hj
    exact Or.inl hj
  · rw [heq] at hj
    simp only at hj
    rcases List.mem_append.mp hj with h | h
    · exact Or.inl (by rw [hsplit]; exact List.mem_append_left _ h)
    · rcases List.mem_cons.mp h with rfl | h
      · exact Or.inr rfl
      · exact Or.inl (by rw [hsplit]; exact List.mem_append_right _ (List.mem_cons_of_mem _ h))

/-- `deletejob` preserves table well-formedness and counter positivity. -/
theorem deletejob_wf {st : JobsState} (pid : Int)
    (hwf : WfJobs st.jobs) (hnj : 1 ≤ st.nextjid) :
    WfJobs (deletejob st pid).1.jobs ∧ 1 ≤ (deletejob st pid).1.nextjid := by
  obtain ⟨hW1, hW2, hnd⟩ := hwf
  rcases deletejob_cases st pid with ⟨heq, _, _⟩ | ⟨l1, j0, l2, _, hsplit, _, _, heq⟩
  · rw [heq]
    exact ⟨⟨hW1, hW2, hnd⟩, hnj⟩
  · rw [heq]
    simp only
    have hmem : ∀ j ∈ l1 ++ clearjob :: l2, j ∈ st.jobs ∨ j = clearjob := by
      intro j hj
      rcases List.mem_append.mp hj with h | h
      · exact Or.inl (by rw [hsplit]; exact List.mem_append_left _ h)
      · rcases List.mem_cons.mp h with rfl | h
        · exact Or.inr rfl
        · exact Or.inl (by rw [hsplit]; exact List.mem_append_right _ (List.mem_cons_of_mem _ h))
    refine ⟨⟨?_, ?_, ?_⟩, ?_⟩
    · intro j hj hp0
      rcases hmem j hj with h | rfl
      · exact hW1 j h hp0
      · exact ⟨rfl, rfl⟩
    · intro j hj hp0
      rcases hmem j hj with h | rfl
      · exact hW2 j h hp0
      · exact absurd rfl hp0
    · rw [hsplit] at hnd
      have := nodup_livePids_drop hnd
      rwa [livePids_append, ← livePids_cons_dead (show clearjob.pid = 0 from rfl) l2,
        ← livePids_append] at this
    · have := maxjid_nonneg (l1 ++ clearjob :: l2)
      omega

/-- Unpacking a successful `getjobpid` lookup. -/
theorem getjobpid_some {jobs : List job_t} {pid : Int} {job : job_t}
    (h : getjobpid jobs pid = some job) :
    1 ≤ pid ∧ jobs.find? (fun j => j.pid == pid) = some job ∧
      job.pid = pid ∧ job ∈ jobs := by
  unfold getjobpid at h
  by_cases hpid : pid < 1
  · simp [hpid] at h
  · simp only [if_neg hpid] at h
    refine ⟨by omega, h, ?_, List.mem_of_find?_eq_some h⟩
    have := List.find?_some h
    simpa using this

/-- Unpacking a successful `getjobjid` lookup. -/
theorem getjobjid_some {jobs : List job_t} {jid : Int} {job : job_t}
    (h : getjobjid jobs jid = some job) :
    1 ≤ jid ∧ jobs.find? (fun j => j.jid == jid) = some job ∧
      job.jid = jid ∧ job ∈ jobs := by
  unfold getjobjid at h
  by_cases hjid : jid < 1
  · simp [hjid] at h
  · simp only [if_neg hjid] at h
    refine ⟨by omega, h, ?_, List.mem_of_find?_eq_some h⟩
    have := List.find?_some h
    simpa using this

/-- Writing a state through the pointer `getjobpid` returned: the table
splits around that slot, whose state field is replaced. -/
theorem setStateByPid_decomp {st : JobsState} {pid : Int} {job : job_t}
    (h : getjobpid st.jobs pid = some job) (s : Int) :
    ∃ l1 l2, st.jobs = l1 ++ job :: l2 ∧ (∀ x ∈ l1, x.pid ≠ pid) ∧
      (setStateByPid st pid s).jobs = l1 ++ ({ job with state := s }) :: l2 ∧
      (setStateByPid st pid s).nextjid = st.nextjid := by
  obtain ⟨_, hfind, hjp, _⟩ := getjobpid_some h
  obtain ⟨l1, l2, hsplit, hfail, _, hupd⟩ :=
    find?_decomp hfind (fun j => { j with state := s })
  exact ⟨l1, l2, hsplit, fun x hx => by simpa using hfail x hx, hupd, rfl⟩

/-- Writing a state through the pointer `getjobjid` returned. -/
theorem setStateByJid_decomp {st : JobsState} {jid : Int} {job : job_t}
    (h : getjobjid st.jobs jid = some job) (s : Int) :
    ∃ l1 l2, st.jobs = l1 ++ job :: l2 ∧ (∀ x ∈ l1, x.jid ≠ jid) ∧
      (setStateByJid st jid s).jobs = l1 ++ ({ job with state := s }) :: l2 ∧
      (setStateByJid st jid s).nextjid = st.nextjid := by
  obtain ⟨_, hfind, hjj, _⟩ := getjobjid_some h
  obtain ⟨l1, l2, hsplit, hfail, _, hupd⟩ :=
    find?_decomp hfind (fun j => { j with state := s })
  exact ⟨l1, l2, hsplit, fun x hx => by simpa using hfail x hx, hupd, rfl⟩

/-- Overwriting the state of an occupied slot preserves well-formedness. -/
theorem wf_state_update {l1 l2 : List job_t} {job : job_t}
    (hwf : WfJobs (l1 ++ job :: l2)) (hjp : job.pid ≠ 0) (s : Int) :
    WfJobs (l1 ++ ({ job with state := s }) :: l2) := by
  obtain ⟨hW1, hW2, hnd⟩ := hwf
  have hmem : ∀ j ∈ l1 ++ ({ job with state := s } : job_t) :: l2,
      j ∈ l1 ++ job :: l2 ∨ j = { job with state := s } := by
    intro j hj
    rcases List.mem_append.mp hj with h | h
    · exact Or.inl (List.mem_append_left _ h)
    · rcases List.mem_cons.mp h with rfl | h
      · exact Or.inr rfl
      · exact Or.inl (List.mem_append_right _ (List.mem_cons_of_mem _ h))
  have hjobmem : job ∈ l1 ++ job :: l2 :=
    List.mem_append_right _ (List.mem_cons_self _ _)
  refine ⟨?_, ?_, ?_⟩
  · intro j hj hp0
    rcases hmem j hj with h | rfl
    · exact hW1 j h hp0
    · exact absurd hp0 hjp
  · intro j hj hp0
    rcases hmem j hj with h | rfl
    · exact hW2 j h hp0
    · exact hW2 job hjobmem hjp
  · rw [livePids_append, livePids_cons_live hjp] at hnd
    rwa [livePids_append, livePids_cons_live (show ({ job with state := s } : job_t).pid ≠ 0 from hjp)]

/-- Inversion of a successful `do_bgfg` resolution: the target came from one
of the two lookups, and that lookup succeeded on the current table. -/
theorem bgfgResolve_ok {argv : List String} {st : JobsState} {tgt : BgfgTarget}
    (h : bgfgResolve argv st = .ok tgt) :
    (∃ jid job, tgt = .byJid jid job ∧ getjobjid st.jobs jid = some job) ∨
    (∃ p job, tgt = .byPid p job ∧ getjobpid st.jobs p = some job) := by
  unfold bgfgResolve at h
  split at h
  · exact absurd h (by simp)
  · split at h
    · exact absurd h (by simp)
    · split at h
      · dsimp only at h
        split at h
        · exact absurd h (by simp)
        · rename_i job hjob
          exact Or.inl ⟨_, job, by injection h with h'; rw [← h'], hjob⟩
      · split at h
        · dsimp only at h
          split at h
          · exact absurd h (by simp)
          · rename_i job hjob
            exact Or.inr ⟨_, job, by injection h with h'; rw [← h'], hjob⟩
        · exact absurd h (by simp)

/-- The local `pid` variable of `do_bgfg` after resolution is the resolved
job's own pid, which is positive, and the job is in the table. -/
theorem bgfg_target_pid {argv : List String} {st : JobsState} {tgt : BgfgTarget}
    (h : bgfgResolve argv st = .ok tgt) (hwf : WfJobs st.jobs) :
    tgt.pid = tgt.job.pid ∧ 1 ≤ tgt.job.pid ∧ tgt.job ∈ st.jobs := by
  obtain ⟨hW1, hW2, _⟩ := hwf
  rcases bgfgResolve_ok h with ⟨jid, job, rfl, hjob⟩ | ⟨p, job, rfl, hjob⟩
  · obtain ⟨hjid1, _, hjj, hmem⟩ := getjobjid_some hjob
    have hp0 : job.pid ≠ 0 := by
      intro hp0
      have := (hW1 job hmem hp0).2
      omega
    exact ⟨rfl, (hW2 job hmem hp0).1, hmem⟩
  · obtain ⟨hp1, _, hjp, hmem⟩ := getjobpid_some hjob
    refine ⟨hjp.symm, ?_, hmem⟩
    simp only [BgfgTarget.job]
    omega

/-- The table after `this_job->state = s`: it splits around the resolved
slot, whose state is overwritten; the counter is untouched. -/
theorem bgfgSetState_decomp {argv : List String} {st : JobsState} {tgt : BgfgTarget}
    (h : bgfgResolve argv st = .ok tgt) (s : Int) :
    ∃ l1 l2, st.jobs = l1 ++ tgt.job :: l2 ∧
      (bgfgSetState st tgt s).jobs = l1 ++ ({ tgt.job with state := s }) :: l2 ∧
      (bgfgSetState st tgt s).nextjid = st.nextjid := by
  rcases bgfgResolve_ok h with ⟨jid, job, rfl, hjob⟩ | ⟨p, job, rfl, hjob⟩
  · obtain ⟨l1, l2, hsplit, _, hupd, hnj⟩ := setStateByJid_decomp hjob s
    exact ⟨l1, l2, hsplit, hupd, hnj⟩
  · obtain ⟨l1, l2, hsplit, _, hupd, hnj⟩ := setStateByPid_decomp hjob s
    exact ⟨l1, l2, hsplit, hupd, hnj⟩

/-- Control-flow shape of `do_bgfg`: the resolution diagnostic path, the
`bg` path, the `fg` path, or (argv[0] neither) fall-through. -/
theorem do_bgfg_shape (argv : List String) (st : JobsState) :
    (∃ msg, bgfgResolve argv st = .error msg ∧ do_bgfg argv st = ⟨st, [msg], [], none⟩) ∨
    (∃ tgt, bgfgResolve argv st = .ok tgt ∧
      ((argv.headD "" = "bg" ∧
         do_bgfg argv st =
           ⟨bgfgSetState st tgt BG,
            ["[" ++ toString (pid2jid (bgfgSetState st tgt BG).jobs tgt.pid) ++ "] ("
               ++ toString tgt.pid ++ ") " ++ tgt.job.cmdline],
            [(-tgt.pid, SIGCONT)], none⟩) ∨
       (¬argv.headD "" = "bg" ∧ argv.headD "" = "fg" ∧
         do_bgfg argv st =
           ⟨bgfgSetState st tgt FG, [], [(-tgt.pid, SIGCONT)], some tgt.pid⟩) ∨
       (¬argv.headD "" = "bg" ∧ ¬argv.headD "" = "fg" ∧
         do_bgfg argv st = ⟨st, [], [], none⟩))) := by
  unfold do_bgfg
  cases hres : bgfgResolve argv st with
  | error msg => exact Or.inl ⟨msg, rfl, rfl⟩
  | ok tgt =>
    refine Or.inr ⟨tgt, rfl, ?_⟩
    by_cases hbg : argv.headD "" = "bg"
    · exact Or.inl ⟨hbg, by dsimp only; rw [if_pos hbg]⟩
    · by_cases hfg : argv.headD "" = "fg"
      · exact Or.inr (Or.inl ⟨hbg, hfg, by dsimp only; rw [if_neg hbg, if_pos hfg]⟩)
      · exact Or.inr (Or.inr ⟨hbg, hfg, by dsimp only; rw [if_neg hbg, if_neg hfg]⟩)

/-- A location invariant survives any table change whose slots are either old
slots or slots that are not foreground. -/
theorem locInv_of_mem {jobs jobs' : List job_t} {lc : MainLoc}
    (hmem : ∀ j ∈ jobs', j ∈ jobs ∨ j.state ≠ FG)
    (h : LocInv jobs lc) : LocInv jobs' lc := by
  cases lc with
  | idle =>
    intro j hj
    rcases hmem j hj with h' | h'
    · exact h j h'
    · exact h'
  | waiting p =>
    intro j hj hFG
    rcases hmem j hj with h' | h'
    · exact h j h' hFG
    · exact absurd hFG h'

/-- Preservation of the shell invariant along every transition. -/
theorem inv_step {s s' : Shell} (hInv : Inv s) (hstep : Step s s') : Inv s' := by
  obtain ⟨hwf, hnj, hloc⟩ := hInv
  cases hstep with
  | spawnBG pid cm hc hl hf =>
    obtain ⟨hp1, hfr, _⟩ := hf
    obtain ⟨hwf', hnj'⟩ := addjob_wf BG cm hwf hnj hp1 hfr
    rw [hl] at hloc
    refine ⟨hwf', hnj', ?_⟩
    intro j hj
    rcases addjob_mem hj with h | rfl
    · exact hloc j h
    · show BG ≠ FG
      decide
  | spawnFG pid cm hc hl hf =>
    obtain ⟨hp1, hfr, _⟩ := hf
    obtain ⟨hwf', hnj'⟩ := addjob_wf FG cm hwf hnj hp1 hfr
    rw [hl] at hloc
    refine ⟨hwf', hnj', ?_⟩
    intro j hj hFG
    rcases addjob_mem hj with h | rfl
    · exact absurd hFG (hloc j h)
    · rfl
  | bgfgCmd argv hc hl =>
    rw [hl] at hloc
    rcases do_bgfg_shape argv s.tbl with ⟨msg, hres, heq⟩ | ⟨tgt, hres, hcase⟩
    · simp only [runBgfgState, heq]
      exact ⟨hwf, hnj, hloc⟩
    · obtain ⟨hpe, hp1, hmem⟩ := bgfg_target_pid hres hwf
      rcases hcase with ⟨hbg, heq⟩ | ⟨_, hfg, heq⟩ | ⟨_, _, heq⟩
      · obtain ⟨l1, l2, hsplit, hupd, hnjeq⟩ := bgfgSetState_decomp hres BG
        simp only [runBgfgState, heq]
        have hwf' : WfJobs (bgfgSetState s.tbl tgt BG).jobs := by
          rw [hupd]
          exact wf_state_update (by rw [← hsplit]; exact hwf) (by omega) BG
        refine ⟨hwf', by rw [hnjeq]; exact hnj, ?_⟩
        refine locInv_of_mem ?_ hloc
        intro j hj
        rw [hupd] at hj
        rcases List.mem_append.mp hj with h | h
        · exact Or.inl (by rw [hsplit]; exact List.mem_append_left _ h)
        · rcases List.mem_cons.mp h with rfl | h
          · exact Or.inr (by show BG ≠ FG; decide)
          · exact Or.inl (by rw [hsplit]; exact List.mem_append_right _ (List.mem_cons_of_mem _ h))
      · obtain ⟨l1, l2, hsplit, hupd, hnjeq⟩ := bgfgSetState_decomp hres FG
        simp only [runBgfgState, heq]
        have hwf' : WfJobs (bgfgSetState s.tbl tgt FG).jobs := by
          rw [hupd]
          exact wf_state_update (by rw [← hsplit]; exact hwf) (by omega) FG
        refine ⟨hwf', by rw [hnjeq]; exact hnj, ?_⟩
        intro j hj hFG
        rw [hupd] at hj
        rcases List.mem_append.mp hj with h | h
        · exact absurd hFG (hloc j (by rw [hsplit]; exact List.mem_append_left _ h))
        · rcases List.mem_cons.mp h with rfl | h
          · rw [hpe]
          · exact absurd hFG
              (hloc j (by rw [hsplit]; exact List.mem_append_right _ (List.mem_cons_of_mem _ h)))
      · simp only [runBgfgState, heq]
        exact ⟨hwf, hnj, hloc⟩
  | waitReturn pid hc hl hw =>
    rw [hl] at hloc
    refine ⟨hwf, hnj, ?_⟩
    intro j hj hFG
    have hjp := hloc j hj hFG
    have hjlive : j.pid ≠ 0 := by
      intro h0
      have h01 : j.state = UNDEF := (hwf.1 j hj h0).1
      rw [hFG] at h01
      exact absurd h01 (by decide)
    have hp1 : 1 ≤ j.pid := (hwf.2.1 j hj hjlive).1
    unfold waitfgExits at hw
    cases hg : getjobpid s.tbl.jobs pid with
    | none =>
      unfold getjobpid at hg
      rw [if_neg (by omega : ¬pid < 1)] at hg
      have := List.find?_eq_none.mp hg j hj
      simp only [beq_iff_eq] at this
      exact this (by simpa using hjp)
    | some j2 =>
      rw [hg] at hw
      obtain ⟨_, _, hj2p, hj2mem⟩ := getjobpid_some hg
      have hjj2 : j = j2 := live_pid_inj hwf.2.2 hj hj2mem (by rw [hjp, hj2p]) hjlive
      rw [← hjj2] at hw
      simp only [Bool.not_eq_true', beq_eq_false_iff_ne] at hw
      exact hw hFG
  | childEvent pid w hc hlive =>
    cases w with
    | exited code =>
      simp only [childEventState, sigchldStep]
      obtain ⟨hwf', hnj'⟩ := deletejob_wf pid hwf hnj
      refine ⟨hwf', hnj', ?_⟩
      refine locInv_of_mem ?_ hloc
      intro j hj
      rcases deletejob_mem hj with h | rfl
      · exact Or.inl h
      · exact Or.inr (by decide)
    | signaled sig =>
      simp only [childEventState, sigchldStep]
      obtain ⟨hwf', hnj'⟩ := deletejob_wf pid hwf hnj
      refine ⟨hwf', hnj', ?_⟩
      refine locInv_of_mem ?_ hloc
      intro j hj
      rcases deletejob_mem hj with h | rfl
      · exact Or.inl h
      · exact Or.inr (by decide)
    | stopped sig =>
      simp only [childEventState, sigchldStep]
      cases hg : getjobpid s.tbl.jobs pid with
      | none => exact ⟨hwf, hnj, hloc⟩
      | some job =>
        obtain ⟨hpid1, _, hjp, hjmem⟩ := getjobpid_some hg
        obtain ⟨l1, l2, hsplit, _, hupd, hnjeq⟩ := setStateByPid_decomp hg ST
        have hwf' : WfJobs (setStateByPid s.tbl pid ST).jobs := by
          rw [hupd]
          exact wf_state_update (by rw [← hsplit]; exact hwf) (by omega) ST
        refine ⟨hwf', by rw [hnjeq]; exact hnj, ?_⟩
        refine locInv_of_mem ?_ hloc
        intro j hj
        rw [hupd] at hj
        rcases List.mem_append.mp hj with h | h
        · exact Or.inl (by rw [hsplit]; exact List.mem_append_left _ h)
        · rcases List.mem_cons.mp h with rfl | h
          · exact Or.inr (by show ST ≠ FG; decide)
          · exact Or.inl (by rw [hsplit]; exact List.mem_append_right _ (List.mem_cons_of_mem _ h))

/-- Every reachable shell state satisfies the invariant. -/
theorem reachable_inv {s : Shell} (h : Reachable s) : Inv s := by
  induction h with
  | init => exact inv_init
  | step _ hstep ih => exact inv_step ih hstep

/-- Under the invariant, at most one slot is foreground. -/
theorem countFG_le_one_of_inv {s : Shell} (h : Inv s) : countFG s.tbl.jobs ≤ 1 := by
  obtain ⟨⟨hW1, hW2, hnd⟩, _, hloc⟩ := h
  cases hl : s.loc with
  | idle =>
    rw [hl] at hloc
    have : countFG s.tbl.jobs = 0 := countFG_eq_zero.mpr hloc
    omega
  | waiting p =>
    rw [hl] at hloc
    clear hl
    generalize hjobs : s.tbl.jobs = l at *
    clear hjobs
    induction l with
    | nil => simp [countFG]
    | cons x rest ih =>
      by_cases hx : x.state = FG
      · have hxp := hloc x (List.mem_cons_self _ _) hx
        have hxlive : x.pid ≠ 0 := by
          intro h0
          have h01 : x.state = UNDEF := (hW1 x (List.mem_cons_self _ _) h0).1
          rw [hx] at h01
          exact absurd h01 (by decide)
        have hrest0 : countFG rest = 0 := by
          rw [countFG_eq_zero]
          intro j hj hFG
          have hjp := hloc j (List.mem_cons_of_mem _ hj) hFG
          have hjlive : j.pid ≠ 0 := by
            intro h0
            have h01 : j.state = UNDEF := (hW1 j (List.mem_cons_of_mem _ hj) h0).1
            rw [hFG] at h01
            exact absurd h01 (by decide)
          rw [livePids_cons_live hxlive] at hnd
          exact (List.nodup_cons.mp hnd).1
            (mem_livePids.mpr ⟨j, hj, hjlive, by rw [hjp, hxp]⟩)
        simp only [countFG, List.filter_cons, beq_iff_eq, hx, if_pos, List.length_cons]
        have : (rest.filter (fun j => j.state == FG)).length = 0 := hrest0
        simp only [countFG] at this
        simp [this]
      · have htail : (livePids rest).Nodup := by
          by_cases hxl : x.pid = 0
          · rwa [livePids_cons_dead hxl] at hnd
          · rw [livePids_cons_live hxl] at hnd
            exact hnd.of_cons
        have : countFG (x :: rest) = countFG rest := by
          simp [countFG, List.filter_cons, hx]
        rw [this]
        exact ih (fun j hj h0 => hW1 j (List.mem_cons_of_mem _ hj) h0)
          (fun j hj h0 => hW2 j (List.mem_cons_of_mem _ hj) h0)
          htail (fun j hj hFG => hloc j (List.mem_cons_of_mem _ hj) hFG)

/-! ## Further helper facts for the claims -/

theorem fgpid_of_no_fg {jobs : List job_t} (h : ∀ j ∈ jobs, j.state ≠ FG) :
    fgpid jobs = 0 := by
  induction jobs with
  | nil => rfl
  | cons x rest ih =>
    simp only [fgpid]
    rw [if_neg (h x (List.mem_cons_self _ _))]
    exact ih fun j hj => h j (List.mem_cons_of_mem _ hj)

theorem fgpid_mem_of_fg {jobs : List job_t} (h : ∃ j ∈ jobs, j.state = FG) :
    ∃ j ∈ jobs, j.state = FG ∧ j.pid = fgpid jobs := by
  induction jobs with
  | nil => simp at h
  | cons x rest ih =>
    by_cases hx : x.state = FG
    · refine ⟨x, List.mem_cons_self _ _, hx, ?_⟩
      simp only [fgpid]
      rw [if_pos hx]
    · obtain ⟨j, hj, hFG⟩ := h
      rcases List.mem_cons.mp hj with rfl | hj
      · exact absurd hFG hx
      · obtain ⟨j', hj', hFG', hp'⟩ := ih ⟨j, hj, hFG⟩
        refine ⟨j', List.mem_cons_of_mem _ hj', hFG', ?_⟩
        simp only [fgpid]
        rw [if_neg hx]
        exact hp'

theorem maxjid_eq_foldl_max (l : List job_t) :
    maxjid l = (l.map (fun j => j.jid)).foldl max 0 := by
  unfold maxjid
  rw [List.foldl_map]
  congr 1
  funext m j
  rcases lt_or_le m j.jid with h | h
  · rw [if_pos h, max_eq_right (le_of_lt h)]
  · rw [if_neg (not_lt.mpr h), max_eq_left h]

theorem foldl_max_filter_live (l : List job_t) (a : Int) (ha : 0 ≤ a)
    (hwf : ∀ j ∈ l, j.pid = 0 → j.jid = 0) :
    ((l.filter (fun j => !(j.pid == 0))).map (fun j => j.jid)).foldl max a =
      (l.map (fun j => j.jid)).foldl max a := by
  induction l generalizing a with
  | nil => rfl
  | cons x rest ih =>
    have hwf' : ∀ j ∈ rest, j.pid = 0 → j.jid = 0 :=
      fun j hj => hwf j (List.mem_cons_of_mem _ hj)
    by_cases hx : x.pid = 0
    · have hx0 : x.jid = 0 := hwf x (List.mem_cons_self _ _) hx
      rw [List.filter_cons_of_neg (by simp [hx])]
      simp only [List.map_cons, List.foldl_cons]
      rw [ih a ha hwf', hx0, max_eq_left ha]
    · rw [List.filter_cons_of_pos (by simp [hx])]
      simp only [List.map_cons, List.foldl_cons]
      exact ih (max a x.jid) (le_trans ha (le_max_left _ _)) hwf'

/-- Spec-side definition, following the spec's words: `max_job_id()` read as
"the maximum ID among remaining live jobs" (0 when there are none), computed
over the occupied slots only — for comparison with the implementation's
`maxjid`, which scans every slot including cleared ones. -/
def max_job_id (jobs : List job_t) : Int :=
  ((jobs.filter (fun j => !(j.pid == 0))).map (fun j => j.jid)).foldl max 0

theorem maxjid_eq_max_job_id {l : List job_t} (hwf : ∀ j ∈ l, j.pid = 0 → j.jid = 0) :
    maxjid l = max_job_id l := by
  rw [maxjid_eq_foldl_max, max_job_id, foldl_max_filter_live l 0 le_rfl hwf]

/-- After `deletejob` removes the slot `getjobpid` found, the pid no longer
resolves (live pids being distinct, there was exactly one such slot). -/
theorem getjobpid_deletejob_self {st : JobsState} {pid : Int} {j : job_t}
    (hnd : (livePids st.jobs).Nodup) (h : getjobpid st.jobs pid = some j) :
    getjobpid (deletejob st pid).1.jobs pid = none := by
  obtain ⟨hp1, hfind, hjp, hjmem⟩ := getjobpid_some h
  rcases deletejob_cases st pid with ⟨_, _, hmiss⟩ | ⟨l1, j0, l2, _, hsplit, hmiss, hj0, heq⟩
  · rcases hmiss with hlt | hall
    · omega
    · exact absurd hjp (hall j hjmem)
  · rw [heq]
    unfold getjobpid
    rw [if_neg (by omega : ¬pid < 1)]
    simp only
    rw [find?_append_left_fail (fun x hx => by simpa using hmiss x hx)]
    rw [List.find?_cons_of_neg _ (by simp [clearjob]; omega)]
    have hl2 := (nodup_livePids_split (by rwa [hsplit] at hnd)
      (by rw [hj0]; omega : j0.pid ≠ 0)).2
    rw [List.find?_eq_none]
    intro x hx
    simp only [beq_iff_eq]
    intro hxp
    exact hl2 x hx (by rw [hxp, hj0])

/-! ## The claims -/

/-- C1: for every sequence of job-table operations the shell can actually
perform (registrations by `eval`, removals and stops by the child-status
handler, state changes by the `bg`/`fg` controller, `waitfg` returns), at
most one job in the table has state `FG` at any instant. -/
theorem fg_at_most_one (s : Shell) (hre : Reachable s) :
    countFG s.tbl.jobs ≤ 1 :=
  countFG_le_one_of_inv (reachable_inv hre)

theorem fg_at_most_one_witness :
    countFG (spawnState shellInit 5 FG "sleep 5\n" (.waiting 5)).tbl.jobs ≤ 1 :=
  fg_at_most_one _
    (Reachable.step Reachable.init (Step.spawnFG shellInit 5 "sleep 5\n" rfl rfl (by decide)))

/-- C3: when `deletejob` succeeds, the new `nextjid` is `maxjid + 1` over the
remaining table, and `maxjid` there coincides with the maximum job ID among
the remaining live jobs (`max_job_id`, the spec's reading), because cleared
slots carry jid 0. -/
theorem nextjid_after_delete (st : JobsState) (pid : Int) (st' : JobsState)
    (hwf : ∀ j ∈ st.jobs, 0 ≤ j.jid ∧ (j.pid = 0 → j.jid = 0))
    (h : deletejob st pid = (st', 1)) :
    st'.nextjid = maxjid st'.jobs + 1 ∧ maxjid st'.jobs = max_job_id st'.jobs := by
  rcases deletejob_cases st pid with ⟨_, hflag, _⟩ | ⟨l1, j0, l2, _, hsplit, _, _, heq⟩
  · rw [h] at hflag
    exact absurd hflag (by simp)
  · rw [heq] at h
    have hst' : st' = ⟨l1 ++ clearjob :: l2, maxjid (l1 ++ clearjob :: l2) + 1⟩ :=
      ((Prod.mk.injEq _ _ _ _).mp h).1.symm
    subst hst'
    refine ⟨rfl, maxjid_eq_max_job_id ?_⟩
    intro j hj hp0
    rcases List.mem_append.mp hj with hmem | hmem
    · refine (hwf j ?_).2 hp0
      rw [hsplit]
      exact List.mem_append_left _ hmem
    · rcases List.mem_cons.mp hmem with rfl | hmem
      · rfl
      · refine (hwf j ?_).2 hp0
        rw [hsplit]
        exact List.mem_append_right _ (List.mem_cons_of_mem _ hmem)

theorem nextjid_after_delete_witness :
    (deletejob (addjob initjobs 7 BG "c").1 7).1.nextjid =
      maxjid (deletejob (addjob initjobs 7 BG "c").1 7).1.jobs + 1 :=
  (nextjid_after_delete (addjob initjobs 7 BG "c").1 7
    (deletejob (addjob initjobs 7 BG "c").1 7).1 (by decide) (by decide)).1

/-- C4: `addjob` returns 0 exactly when the pid is invalid (< 1) or every
slot is occupied; on either failure the table and counter are unchanged;
otherwise it returns 1 and registers the job, with jid `nextjid`, in the
first empty slot. -/
theorem addjob_contract (st : JobsState) (pid state : Int) (cm : String) :
    ((addjob st pid state cm).2 = 0 ∨ (addjob st pid state cm).2 = 1) ∧
    ((addjob st pid state cm).2 = 0 ↔ pid < 1 ∨ ∀ j ∈ st.jobs, j.pid ≠ 0) ∧
    ((addjob st pid state cm).2 = 0 → (addjob st pid state cm).1 = st) ∧
    ((addjob st pid state cm).2 = 1 →
      ∃ l1 j0 l2, st.jobs = l1 ++ j0 :: l2 ∧ (∀ j ∈ l1, j.pid ≠ 0) ∧ j0.pid = 0 ∧
        (addjob st pid state cm).1.jobs =
          l1 ++ (⟨pid, st.nextjid, state, cm⟩ : job_t) :: l2) := by
  by_cases hpid : pid < 1
  · have he : addjob st pid state cm = (st, 0) := by
      unfold addjob
      rw [if_pos hpid]
    rw [he]
    exact ⟨Or.inl rfl, ⟨fun _ => Or.inl hpid, fun _ => rfl⟩, fun _ => rfl,
      fun h1 => absurd h1 (by simp)⟩
  · rcases addjobScan_cases st.jobs pid state cm st.nextjid with ⟨hall, heq⟩ |
      ⟨l1, j0, l2, hsplit, hocc, hj0, heq⟩
    · have he : addjob st pid state cm = (st, 0) := by
        unfold addjob
        rw [if_neg hpid, heq]
      rw [he]
      exact ⟨Or.inl rfl, ⟨fun _ => Or.inr hall, fun _ => rfl⟩, fun _ => rfl,
        fun h1 => absurd h1 (by simp)⟩
    · have he : addjob st pid state cm =
          (⟨l1 ++ (⟨pid, st.nextjid, state, cm⟩ : job_t) :: l2,
            if MAXJOBS < st.nextjid + 1 then 1 else st.nextjid + 1⟩, 1) := by
        unfold addjob
        rw [if_neg hpid, heq]
      rw [he]
      refine ⟨Or.inr rfl, ⟨fun h0 => absurd h0 (by simp), ?_⟩,
        fun h0 => absurd h0 (by simp), fun _ => ⟨l1, j0, l2, hsplit, hocc, hj0, rfl⟩⟩
      intro hc
      rcases hc with h | hfull
      · exact absurd h hpid
      · exact absurd hj0
          (hfull j0 (by rw [hsplit]; exact List.mem_append_right _ (List.mem_cons_self _ _)))

theorem addjob_contract_witness :
    (addjob initjobs 0 BG "c").2 = 0 ∧ (addjob initjobs 0 BG "c").1 = initjobs := by
  have h := addjob_contract initjobs 0 BG "c"
  have h0 : (addjob initjobs 0 BG "c").2 = 0 := h.2.1.mpr (Or.inl (by decide))
  exact ⟨h0, h.2.2.1 h0⟩

/-- C6: the interrupt-forward and stop-forward handlers never write the job
table; when no live job is foreground they send nothing, and when a
foreground job exists each sends its received signal to the negative of that
job's pid (the whole process group).  The hypothesis is the data-model
invariant that foreground slots carry a positive pid. -/
theorem sig_forward_fg_only (st : JobsState) (sig : Int)
    (hwf : ∀ j ∈ st.jobs, j.state = FG → 1 ≤ j.pid) :
    ((∀ j ∈ st.jobs, j.state ≠ FG) →
       sigint_handler st sig = (st, []) ∧ sigtstp_handler st sig = (st, [])) ∧
    ((∃ j ∈ st.jobs, j.state = FG) →
       sigint_handler st sig = (st, [(-fgpid st.jobs, sig)]) ∧
       sigtstp_handler st sig = (st, [(-fgpid st.jobs, sig)]) ∧
       ∃ j ∈ st.jobs, j.state = FG ∧ j.pid = fgpid st.jobs) := by
  constructor
  · intro hno
    have h0 : fgpid st.jobs = 0 := fgpid_of_no_fg hno
    have hg : getjobpid st.jobs (fgpid st.jobs) = none := by
      rw [h0]
      unfold getjobpid
      rw [if_pos (by omega : (0 : Int) < 1)]
    constructor
    · unfold sigint_handler
      dsimp only
      rw [hg]
    · unfold sigtstp_handler
      dsimp only
      rw [hg]
  · intro hex
    obtain ⟨j0, hj0mem, hj0FG, hj0p⟩ := fgpid_mem_of_fg hex
    have hp1 : 1 ≤ fgpid st.jobs := by
      rw [← hj0p]
      exact hwf j0 hj0mem hj0FG
    have hg : ∃ x, getjobpid st.jobs (fgpid st.jobs) = some x := by
      unfold getjobpid
      rw [if_neg (by omega : ¬fgpid st.jobs < 1)]
      cases hf : st.jobs.find? (fun x => x.pid == fgpid st.jobs) with
      | none =>
        exact absurd (by simpa using hj0p)
          (by simpa using List.find?_eq_none.mp hf j0 hj0mem)
      | some x => exact ⟨x, rfl⟩
    obtain ⟨x, hx⟩ := hg
    refine ⟨?_, ?_, j0, hj0mem, hj0FG, hj0p⟩
    · unfold sigint_handler
      dsimp only
      rw [hx]
    · unfold sigtstp_handler
      dsimp only
      rw [hx]

theorem sig_forward_fg_only_witness :
    sigint_handler (addjob initjobs 5 FG "c").1 SIGINT =
      ((addjob initjobs 5 FG "c").1,
       [(-fgpid (addjob initjobs 5 FG "c").1.jobs, SIGINT)]) :=
  ((sig_forward_fg_only (addjob initjobs 5 FG "c").1 SIGINT (by decide)).2 (by decide)).1

/-- C7: `waitfg`'s loop exits exactly when the table no longer reports the
pid as a foreground job — in particular immediately, when the pid is not
tracked at all.  The exit condition is a pure observation of the table (the
embedding `waitfgExits` is a function of the table alone); `waitfg` performs
no wait-for-child call. -/
theorem waitfg_exit_iff (jobs : List job_t) (pid : Int) :
    (waitfgExits jobs pid = true ↔
      ∀ j, getjobpid jobs pid = some j → j.state ≠ FG) ∧
    (getjobpid jobs pid = none → waitfgExits jobs pid = true) := by
  unfold waitfgExits
  cases hg : getjobpid jobs pid with
  | none => simp
  | some j =>
    constructor
    · constructor
      · intro hw j' hj'
        injection hj' with h'
        rw [← h']
        simpa using hw
      · intro hall
        simpa using hall j rfl
    · intro hnone
      exact absurd hnone (by simp)

theorem waitfg_exit_iff_witness : waitfgExits initjobs.jobs 1 = true :=
  (waitfg_exit_iff initjobs.jobs 1).2 (by decide)

/-- C5: per reaped (pid, status) of a tracked job, under distinct live pids:
an exit deletes the job silently (the pid no longer resolves, nothing is
printed); a kill-by-signal prints exactly
`Job [jid] (pid) terminated by signal sig\n` and deletes the job; a stop sets
the job's state to `ST`, prints exactly `Job [jid] (pid) stopped by signal
sig\n`, and keeps the job tracked. -/
theorem sigchld_cases (st : JobsState) (pid : Int) (j : job_t) (sig code : Int)
    (htr : getjobpid st.jobs pid = some j)
    (hnd : (livePids st.jobs).Nodup) :
    (sigchldStep st pid (.exited code) = some ((deletejob st pid).1, []) ∧
       getjobpid (deletejob st pid).1.jobs pid = none) ∧
    (sigchldStep st pid (.signaled sig) = some ((deletejob st pid).1,
         ["Job [" ++ toString j.jid ++ "] (" ++ toString pid
            ++ ") terminated by signal " ++ toString sig ++ "\n"]) ∧
       getjobpid (deletejob st pid).1.jobs pid = none) ∧
    (sigchldStep st pid (.stopped sig) = some (setStateByPid st pid ST,
         ["Job [" ++ toString j.jid ++ "] (" ++ toString pid
            ++ ") stopped by signal " ++ toString sig ++ "\n"]) ∧
       getjobpid (setStateByPid st pid ST).jobs pid = some { j with state := ST }) := by
  obtain ⟨hp1, hfind, hjp, hjmem⟩ := getjobpid_some htr
  have hdel := getjobpid_deletejob_self hnd htr
  have hjid : pid2jid st.jobs pid = j.jid := by
    unfold pid2jid
    rw [if_neg (by omega : ¬pid < 1), hfind]
  obtain ⟨l1, l2, hsplit, hfail, hupd, hnjeq⟩ := setStateByPid_decomp htr ST
  have hfind' : ((setStateByPid st pid ST).jobs).find? (fun x => x.pid == pid)
      = some { j with state := ST } := by
    rw [hupd, find?_append_left_fail (fun x hx => by simpa using hfail x hx),
      List.find?_cons_of_pos _ (by simp [hjp])]
  have hg' : getjobpid (setStateByPid st pid ST).jobs pid = some { j with state := ST } := by
    unfold getjobpid
    rw [if_neg (by omega : ¬pid < 1), hfind']
  have hjid' : pid2jid (setStateByPid st pid ST).jobs pid = j.jid := by
    unfold pid2jid
    rw [if_neg (by omega : ¬pid < 1), hfind']
  refine ⟨⟨rfl, hdel⟩, ⟨?_, hdel⟩, ⟨?_, hg'⟩⟩
  · simp only [sigchldStep, hjid]
  · simp only [sigchldStep]
    rw [htr]
    dsimp only
    rw [hjid']

theorem sigchld_cases_witness :
    sigchldStep (addjob initjobs 5 BG "c").1 5 (.stopped 20) =
      some (setStateByPid (addjob initjobs 5 BG "c").1 5 ST,
        ["Job [" ++ toString (1 : Int) ++ "] (" ++ toString (5 : Int)
           ++ ") stopped by signal " ++ toString (20 : Int) ++ "\n"]) :=
  ((sigchld_cases (addjob initjobs 5 BG "c").1 5 ⟨5, 1, BG, "c"⟩ 20 0
    (by decide) (by decide)).2.2).1

/-- C8: every resolution failure of `do_bgfg` — missing argument, `%jobid`
with no such job, digit pid with no such process, or an argument that is
neither — prints exactly one diagnostic and mutates nothing: the table is
returned unchanged, no job state changes, no signal is sent, and `waitfg` is
not called. -/
theorem bgfg_error_noop (argv : List String) (st : JobsState) :
    (∀ msg, bgfgResolve argv st = .error msg →
       do_bgfg argv st = ⟨st, [msg], [], none⟩) ∧
    (argv.get? 1 = none →
       bgfgResolve argv st =
         .error (argv.headD "" ++ " command requires PID or %jobid argument\n")) ∧
    (∀ a1 rest, argv.get? 1 = some a1 → a1.data = '%' :: rest →
       getjobjid st.jobs (atoi (String.mk rest)) = none →
       bgfgResolve argv st = .error (a1 ++ ": No such job\n")) ∧
    (∀ a1 c cs, argv.get? 1 = some a1 → a1.data = c :: cs → c ≠ '%' →
       c.isDigit = true → getjobpid st.jobs (atoi a1) = none →
       bgfgResolve argv st = .error ("(" ++ toString (atoi a1) ++ "): No such process\n")) ∧
    (∀ a1 c cs, argv.get? 1 = some a1 → a1.data = c :: cs → c ≠ '%' →
       c.isDigit = false →
       bgfgResolve argv st = .error (argv.headD "" ++ ": argument must be a PID or %jobid\n")) := by
  refine ⟨?_, ?_, ?_, ?_, ?_⟩
  · intro msg h
    unfold do_bgfg
    rw [h]
  · intro h
    unfold bgfgResolve
    rw [h]
  · intro a1 rest h1 h2 h3
    unfold bgfgResolve
    rw [h1]
    dsimp only
    rw [h2]
    dsimp only
    rw [if_pos rfl]
    rw [h3]
  · intro a1 c cs h1 h2 hc hd h3
    unfold bgfgResolve
    rw [h1]
    dsimp only
    rw [h2]
    dsimp only
    rw [if_neg hc, if_pos hd]
    rw [h3]
  · intro a1 c cs h1 h2 hc hd
    unfold bgfgResolve
    rw [h1]
    dsimp only
    rw [h2]
    dsimp only
    rw [if_neg hc, if_neg (by simp [hd])]

theorem bgfg_error_noop_witness :
    do_bgfg ["fg"] initjobs =
      ⟨initjobs, ["fg command requires PID or %jobid argument\n"], [], none⟩ := by
  have h := bgfg_error_noop ["fg"] initjobs
  exact h.1 _ (h.2.1 rfl)

/-- The slot `do_bgfg` resolved, after its state is overwritten: it is the
first slot its pid resolves to, and `pid2jid` on the mutated table still
reports its jid. -/
theorem getjobpid_after_set {argv : List String} {st : JobsState} {tgt : BgfgTarget}
    (hwf : WfJobs st.jobs) (hres : bgfgResolve argv st = .ok tgt) (s : Int) :
    getjobpid (bgfgSetState st tgt s).jobs tgt.job.pid = some { tgt.job with state := s } ∧
    pid2jid (bgfgSetState st tgt s).jobs tgt.job.pid = tgt.job.jid := by
  obtain ⟨hpe, hp1, hmem⟩ := bgfg_target_pid hres hwf
  obtain ⟨l1, l2, hsplit, hupd, hnjeq⟩ := bgfgSetState_decomp hres s
  have hl1 : ∀ x ∈ l1, x.pid ≠ tgt.job.pid := by
    have hnd := hwf.2.2
    rw [hsplit] at hnd
    exact (nodup_livePids_split hnd (by omega)).1
  have hfind : ((bgfgSetState st tgt s).jobs).find? (fun x => x.pid == tgt.job.pid)
      = some { tgt.job with state := s } := by
    rw [hupd, find?_append_left_fail (fun x hx => by simpa using hl1 x hx),
      List.find?_cons_of_pos _ (by simp)]
  constructor
  · unfold getjobpid
    rw [if_neg (by omega : ¬tgt.job.pid < 1), hfind]
  · unfold pid2jid
    rw [if_neg (by omega : ¬tgt.job.pid < 1), hfind]

/-- C9: when the target resolves to a tracked job, `bg` sets its state to
`BG`, prints exactly `[jid] (pid) cmdline`, and sends SIGCONT to the
negative of the job's pid (its process group); `fg` sets the state to `FG`,
sends SIGCONT to the group, and then calls `waitfg` on the job's pid. -/
theorem bgfg_success_effect (argv : List String) (st : JobsState) (tgt : BgfgTarget)
    (hwf : WfJobs st.jobs) (hres : bgfgResolve argv st = .ok tgt) :
    (argv.headD "" = "bg" →
       (do_bgfg argv st).st = bgfgSetState st tgt BG ∧
       getjobpid (do_bgfg argv st).st.jobs tgt.job.pid = some { tgt.job with state := BG } ∧
       (do_bgfg argv st).out =
         ["[" ++ toString tgt.job.jid ++ "] (" ++ toString tgt.job.pid ++ ") "
            ++ tgt.job.cmdline] ∧
       (do_bgfg argv st).kills = [(-tgt.job.pid, SIGCONT)] ∧
       (do_bgfg argv st).wait = none) ∧
    (argv.headD "" = "fg" →
       getjobpid (do_bgfg argv st).st.jobs tgt.job.pid = some { tgt.job with state := FG } ∧
       (do_bgfg argv st).out = [] ∧
       (do_bgfg argv st).kills = [(-tgt.job.pid, SIGCONT)] ∧
       (do_bgfg argv st).wait = some tgt.job.pid) := by
  obtain ⟨hpe, hp1, hmem⟩ := bgfg_target_pid hres hwf
  rcases do_bgfg_shape argv st with ⟨msg, hres', _⟩ | ⟨tgt', hres', hcase⟩
  · rw [hres] at hres'
    exact absurd hres' (by simp)
  · rw [hres] at hres'
    have htgt : tgt' = tgt := by
      injection hres' with h'
      exact h'.symm
    subst htgt
    constructor
    · intro hbg
      rcases hcase with ⟨_, heq⟩ | ⟨hn, _, _⟩ | ⟨hn, _, _⟩
      · obtain ⟨hg', hjid'⟩ := getjobpid_after_set hwf hres BG
        rw [heq]
        dsimp only
        rw [hpe, hjid']
        exact ⟨rfl, hg', rfl, rfl, rfl⟩
      · exact absurd hbg hn
      · exact absurd hbg hn
    · intro hfg
      rcases hcase with ⟨hb, _⟩ | ⟨_, _, heq⟩ | ⟨_, hn, _⟩
      · rw [hfg] at hb
        exact absurd hb (by decide)
      · obtain ⟨hg', _⟩ := getjobpid_after_set hwf hres FG
        rw [heq]
        dsimp only
        rw [hpe]
        exact ⟨hg', rfl, rfl, rfl⟩
      · exact absurd hfg hn

/-- Background registration of one pid with command line "c": the job-table
effect of `eval` launching one background job. -/
def addB (st : JobsState) (pid : Int) : JobsState := (addjob st pid BG "c").1

/-- Table effect of the child-status handler reaping an exit of `pid`. -/
def delP (st : JobsState) (pid : Int) : JobsState := (deletejob st pid).1

theorem bgfg_success_effect_witness :
    (do_bgfg ["bg", "%1"] (addB initjobs 5)).kills = [(-5, SIGCONT)] ∧
    (do_bgfg ["bg", "%1"] (addB initjobs 5)).wait = none := by
  have h := (bgfg_success_effect ["bg", "%1"] (addB initjobs 5)
      (.byJid 1 ⟨5, 1, BG, "c"⟩) (by decide) rfl).1 rfl
  exact ⟨h.2.2.2.1, h.2.2.2.2⟩

/-- Job-table state after: registering pids 1..16 (assigned jids 1..16; the
counter then wraps to 1), reaping exits of pid 16 (jid 16) and pid 2 (jid 2)
(each reap recomputes the counter to `maxjid + 1 = 16`), then registering
pid 17 (assigned jid 16; the counter wraps to 1 again) and pid 18 (assigned
jid 1, duplicating the jid of the still-live pid 1). -/
def c2state : JobsState :=
  addB (addB (delP (delP
    (List.foldl addB initjobs [1, 2, 3, 4, 5, 6, 7, 8, 9, 10, 11, 12, 13, 14, 15, 16])
    16) 2) 17) 18

/-- C2 counterexample.  First conjunct: after a legal `addjob`/`deletejob`
sequence, two distinct live jobs (pids 1 and 18) both carry job ID 1 —
assigned IDs are not unique among currently live jobs.  Remaining conjuncts:
in the short trace add 10, add 20, delete 20, add 30 the counter never
exceeds MAXJOBS (no wrap: it ends at 3), yet pid 30 receives job ID 2, the
ID previously assigned to pid 20, while the lower ID 1 (pid 10) is still
allocated — IDs are reused without a wrap and are not monotone across
registrations. -/
theorem jid_unique_cex :
    ((c2state.jobs.filter (fun j => !(j.pid == 0) && j.jid == 1)).map (fun j => j.pid)
      = [1, 18]) ∧
    pid2jid (addB (addB initjobs 10) 20).jobs 20 = 2 ∧
    pid2jid (addB (delP (addB (addB initjobs 10) 20) 20) 30).jobs 30 = 2 ∧
    pid2jid (addB (delP (addB (addB initjobs 10) 20) 20) 30).jobs 10 = 1 ∧
    (addB (delP (addB (addB initjobs 10) 20) 20) 30).nextjid = 3 := by
  refine ⟨by decide, by decide, by decide, by decide, by decide⟩

/-- C2 amended: `addjob` assigns the current value of `nextjid` as the new
job's ID; whenever that counter exceeds every allocated ID (`maxjid`), the
new ID is strictly greater than the ID of every existing slot, hence unique
among live jobs.  (Without that premise uniqueness fails: `deletejob`
recomputes the counter to `maxjid + 1`, reusing IDs without a wrap, and
after the counter wraps at MAXJOBS a live ID can be duplicated.) -/
theorem jid_fresh_when_counter_above_max (st : JobsState) (pid state : Int) (cm : String)
    (hmax : maxjid st.jobs < st.nextjid)
    (hflag : (addjob st pid state cm).2 = 1) :
    ∃ l1 j0 l2, st.jobs = l1 ++ j0 :: l2 ∧ j0.pid = 0 ∧
      (addjob st pid state cm).1.jobs =
        l1 ++ (⟨pid, st.nextjid, state, cm⟩ : job_t) :: l2 ∧
      ∀ j ∈ st.jobs, j.jid < st.nextjid := by
  by_cases hpid : pid < 1
  · have : (addjob st pid state cm).2 = 0 := by
      unfold addjob
      rw [if_pos hpid]
    rw [hflag] at this
    exact absurd this (by simp)
  · rcases addjobScan_cases st.jobs pid state cm st.nextjid with ⟨_, heq⟩ |
      ⟨l1, j0, l2, hsplit, _, hj0, heq⟩
    · have : (addjob st pid state cm).2 = 0 := by
        unfold addjob
        rw [if_neg hpid, heq]
      rw [hflag] at this
      exact absurd this (by simp)
    · refine ⟨l1, j0, l2, hsplit, hj0, ?_, ?_⟩
      · unfold addjob
        rw [if_neg hpid, heq]
      · intro j hj
        have := le_maxjid hj
        omega

theorem jid_fresh_witness :
    ∃ l1 j0 l2, (addB initjobs 5).jobs = l1 ++ j0 :: l2 ∧ j0.pid = 0 ∧
      (addjob (addB initjobs 5) 6 BG "c").1.jobs =
        l1 ++ (⟨6, (addB initjobs 5).nextjid, BG, "c"⟩ : job_t) :: l2 ∧
      ∀ j ∈ (addB initjobs 5).jobs, j.jid < (addB initjobs 5).nextjid :=
  jid_fresh_when_counter_above_max (addB initjobs 5) 6 BG "c" (by decide) (by decide)

/-- Shell state after 16 background launches (pids 1..16, filling all 16
slots) followed by a 17th background launch (pid 17) whose registration
fails because the table is full: pid 17 is a live child the shell does not
track. -/
def fullShell : Shell :=
  List.foldl (fun s p => spawnState s p BG "c" .idle) shellInit
    [1, 2, 3, 4, 5, 6, 7, 8, 9, 10, 11, 12, 13, 14, 15, 16, 17]

theorem fullShell_reachable : Reachable fullShell := by
  have h0 : Reachable shellInit := Reachable.init
  have h1 := Reachable.step h0 (Step.spawnBG _ 1 "c" rfl rfl (by decide))
  have h2 := Reachable.step h1 (Step.spawnBG _ 2 "c" rfl rfl (by decide))
  have h3 := Reachable.step h2 (Step.spawnBG _ 3 "c" rfl rfl (by decide))
  have h4 := Reachable.step h3 (Step.spawnBG _ 4 "c" rfl rfl (by decide))
  have h5 := Reachable.step h4 (Step.spawnBG _ 5 "c" rfl rfl (by decide))
  have h6 := Reachable.step h5 (Step.spawnBG _ 6 "c" rfl rfl (by decide))
  have h7 := Reachable.step h6 (Step.spawnBG _ 7 "c" rfl rfl (by decide))
  have h8 := Reachable.step h7 (Step.spawnBG _ 8 "c" rfl rfl (by decide))
  have h9 := Reachable.step h8 (Step.spawnBG _ 9 "c" rfl rfl (by decide))
  have h10 := Reachable.step h9 (Step.spawnBG _ 10 "c" rfl rfl (by decide))
  have h11 := Reachable.step h10 (Step.spawnBG _ 11 "c" rfl rfl (by decide))
  have h12 := Reachable.step h11 (Step.spawnBG _ 12 "c" rfl rfl (by decide))
  have h13 := Reachable.step h12 (Step.spawnBG _ 13 "c" rfl rfl (by decide))
  have h14 := Reachable.step h13 (Step.spawnBG _ 14 "c" rfl rfl (by decide))
  have h15 := Reachable.step h14 (Step.spawnBG _ 15 "c" rfl rfl (by decide))
  have h16 := Reachable.step h15 (Step.spawnBG _ 16 "c" rfl rfl (by decide))
  have h17 := Reachable.step h16 (Step.spawnBG _ 17 "c" rfl rfl (by decide))
  exact h17

/-- C10 counterexample: a reachable shell state in which a live child
(pid 17, spawned while the table was full, running untracked) can be reaped
as stopped while absent from the job table: the handler's lookup returns the
absent case (NULL) and the handler dereferences it (crash). -/
theorem stopped_untracked_cex :
    Reachable fullShell ∧ (17 : Int) ∈ fullShell.untracked ∧
    getjobpid fullShell.tbl.jobs 17 = none ∧
    sigchldStep fullShell.tbl 17 (.stopped SIGTSTP) = none ∧
    (childEventState fullShell 17 (.stopped SIGTSTP)).crashed = true ∧
    Reachable (childEventState fullShell 17 (.stopped SIGTSTP)) := by
  refine ⟨fullShell_reachable, by decide, by decide, by decide, by decide, ?_⟩
  exact Reachable.step fullShell_reachable
    (Step.childEvent fullShell 17 (.stopped SIGTSTP) (by decide) (Or.inr (by decide)))

/-- C10 amended: in every reachable state with no untracked children (no
registration ever failed), every pid the child-status handler can reap — a
live child — is present in the job table, so the stopped branch's lookup
succeeds and the handler does not crash. -/
theorem stopped_tracked_lookup (s : Shell) (pid sig : Int)
    (hre : Reachable s) (hun : s.untracked = [])
    (hlive : pid ∈ livePids s.tbl.jobs ∨ pid ∈ s.untracked) :
    (getjobpid s.tbl.jobs pid).isSome = true ∧
    sigchldStep s.tbl pid (.stopped sig) ≠ none ∧
    (childEventState s pid (.stopped sig)).crashed = s.crashed := by
  have hinv := reachable_inv hre
  rw [hun] at hlive
  rcases hlive with h | h
  · obtain ⟨j, hjmem, hjlive, hjp⟩ := mem_livePids.mp h
    have hp1 : 1 ≤ j.pid := (hinv.1.2.1 j hjmem hjlive).1
    have hfind : ∃ x, s.tbl.jobs.find? (fun x => x.pid == pid) = some x := by
      cases hf : s.tbl.jobs.find? (fun x => x.pid == pid) with
      | none =>
        exact absurd (by simpa using hjp)
          (by simpa using List.find?_eq_none.mp hf j hjmem)
      | some x => exact ⟨x, rfl⟩
    obtain ⟨x, hx⟩ := hfind
    have hg : getjobpid s.tbl.jobs pid = some x := by
      unfold getjobpid
      rw [if_neg (by omega : ¬pid < 1), hx]
    refine ⟨by rw [hg]; rfl, ?_, ?_⟩
    · simp only [sigchldStep]
      rw [hg]
      simp
    · simp only [childEventState, sigchldStep, hg]
  · simp at h

theorem stopped_tracked_lookup_witness :
    (getjobpid (spawnState shellInit 5 BG "c" .idle).tbl.jobs 5).isSome = true :=
  (stopped_tracked_lookup (spawnState shellInit 5 BG "c" .idle) 5 SIGTSTP
    (Reachable.step Reachable.init (Step.spawnBG shellInit 5 "c" rfl rfl (by decide)))
    (by decide) (Or.inl (by decide))).1

end Tsh
